import Mathlib

/-!
Shallow embedding of `pkg_extractor` (src/pkg_extractor/src/lib.rs).

The Rust crate walks a macOS flat package, and for each component streams
the CPIO payload entries to disk.  The embedding below models, faithfully
to the source:

* `FileType.from_mode` — the classifier (lib.rs lines 27-40);
* `normalizeName` / `stripPayloadRoot` — the skip test and the
  `strip_prefix("Payload/")` normalisation (lib.rs lines 133-140);
* `copyLoop` — the bounded 8192-byte copy loop (lib.rs lines 163-180);
* `processEntry` — one iteration of the entry loop (lib.rs lines 128-190),
  parameterised by the outcomes of the external I/O operations
  (`create_dir_all`, `File::create`, `write_all`, `finish`), each of which
  propagates its error via `?` in the source;
* `runEntries` / `extractComponent` / `extract` — the component loop, the
  payload guard `if let Ok(Some(..))`, and the orchestrator
  (`extract`, `extract_root_component`, `extract_product_package`).

The filesystem is modelled as an association list from paths (lists of
segments) to nodes; an entry's content stream is the list of bytes it will
deliver before signalling end-of-stream or an error.  Event traces record
the `read_next`, `read` and `finish` calls made on the payload reader.
-/

set_option autoImplicit false

namespace PkgExtractor

/-- Semantic file-type tag, lib.rs lines 15-25. -/
inductive FileType where
  | Directory
  | Regular
  | Symlink
  | Socket
  | BlockDevice
  | CharacterDevice
  | Fifo
  | Unknown (raw : Nat)
deriving DecidableEq, Repr

/-- Classifier, lib.rs lines 27-40: match on `mode & 0o170000`. -/
def FileType.from_mode (mode : Nat) : FileType :=
  match mode &&& 0o170000 with
  | 0o040000 => FileType.Directory
  | 0o100000 => FileType.Regular
  | 0o120000 => FileType.Symlink
  | 0o140000 => FileType.Socket
  | 0o060000 => FileType.BlockDevice
  | 0o020000 => FileType.CharacterDevice
  | 0o010000 => FileType.Fifo
  | other => FileType.Unknown other

/-- Tags skipped by the `_` arm of the type dispatch (lib.rs lines 183-185):
everything that is neither `Directory` nor `Regular`. -/
def FileType.isSpecial : FileType → Bool
  | FileType.Directory => false
  | FileType.Regular => false
  | _ => true

/-- The literal payload-root marker `"Payload"` (lib.rs lines 134, 140). -/
def payloadRootName : List Char := ['P', 'a', 'y', 'l', 'o', 'a', 'd']

/-- Model of Rust `str::strip_prefix`: `dropLead p s` returns `some r`
when `s = p ++ r`, and `none` otherwise. -/
def dropLead : List Char → List Char → Option (List Char)
  | [], s => some s
  | _ :: _, [] => none
  | p :: ps, c :: cs => if c = p then dropLead ps cs else none

/-- Removal of a leading `"Payload/"`, lib.rs line 140:
`name.strip_prefix("Payload/").unwrap_or(name)`. -/
def stripPayloadRoot (name : List Char) : List Char :=
  match dropLead (payloadRootName ++ ['/']) name with
  | some rest => rest
  | none => name

/-- Decidable form of the skip test, lib.rs line 134:
`name.is_empty() || name == "." || name == "Payload"`. -/
def skipName (name : List Char) : Prop :=
  name = [] ∨ name = ['.'] ∨ name = payloadRootName

instance (name : List Char) : Decidable (skipName name) := by
  unfold skipName; infer_instance

/-- The normaliser as a single function: `none` signals skip, otherwise
the cleaned relative name is produced (lib.rs lines 133-140). -/
def normalizeName (name : List Char) : Option (List Char) :=
  if skipName name then none else some (stripPayloadRoot name)

/-- Path segment: one component of a filesystem path. -/
abbrev Seg := List Char

/-- Filesystem path: a list of segments. -/
abbrev Path := List Seg

/-- Splitting a name on `'/'` into segments, accumulator-based. -/
def splitSegsAux : List Char → List Char → List Seg
  | [], acc => [acc.reverse]
  | '/' :: rest, acc => acc.reverse :: splitSegsAux rest []
  | c :: rest, acc => splitSegsAux rest (c :: acc)

/-- Segments of a cleaned name; `PathBuf::join` appends them to the root. -/
def splitSegs (s : List Char) : List Seg := splitSegsAux s []

/-- Lexical resolution depth: walks the segments keeping the depth below
the output root; a `".."` at depth 0 climbs above the root. -/
def escapesAux : List Seg → Nat → Bool
  | [], _ => false
  | s :: rest, d =>
    if s = ['.', '.'] then
      match d with
      | 0 => true
      | e + 1 => escapesAux rest e
    else if s = ['.'] ∨ s = [] then escapesAux rest d
    else escapesAux rest (d + 1)

/-- Whether joining `clean` onto the output root escapes the root: an
absolute name replaces the root outright (`PathBuf::join` semantics), and
otherwise lexical `".."` resolution may climb above it. -/
def targetEscapes (clean : List Char) : Bool :=
  match clean with
  | '/' :: _ => true
  | _ => escapesAux (splitSegs clean) 0

/-- A filesystem node: a directory or a regular file with its bytes. -/
inductive Node where
  | dir
  | file (content : List Nat)
deriving DecidableEq, Repr

/-- Filesystem state: association list from paths to nodes. -/
abbrev FS := List (Path × Node)

/-- Insert or overwrite the node at path `p`. -/
def setNode (fs : FS) (p : Path) (n : Node) : FS :=
  match fs with
  | [] => [(p, n)]
  | (q, m) :: rest => if q = p then (p, n) :: rest else (q, m) :: setNode rest p n

/-- Look up the node at path `p`. -/
def lookupFS (fs : FS) (p : Path) : Option Node :=
  match fs with
  | [] => none
  | (q, m) :: rest => if q = p then some m else lookupFS rest p

/-- Helper for `mkdirAll`: create directory nodes at `done ++ [s]` for each
successive segment `s`, walking the remaining segments. -/
def mkdirAllAux (fs : FS) (done : Path) : List Seg → FS
  | [] => fs
  | s :: rest => mkdirAllAux (setNode fs (done ++ [s]) Node.dir) (done ++ [s]) rest

/-- Model of `fs::create_dir_all`: create the directory and every missing
ancestor, idempotently. -/
def mkdirAll (fs : FS) (p : Path) : FS := mkdirAllAux fs [] p

/-- Events observed on the payload reader while extracting one component:
`readNext` is a `read_next()` call, `read req got` is a content `read`
requesting `req` bytes and obtaining `got`, `finish` is a `finish()` call. -/
inductive Ev where
  | readNext
  | read (req : Nat) (got : Nat)
  | finish
deriving DecidableEq, Repr

/-- How the per-entry copy loop (lib.rs lines 166-180) ends: `done` when
`remaining` reached 0, `eofEarly` on a zero-byte read (`Ok(0) => break`),
`readErr` on a content-read error (logged, `break`), `writeErr` when
`write_all` failed (propagates via `?`). -/
inductive CopyEnd where
  | done
  | eofEarly
  | readErr
  | writeErr
deriving DecidableEq, Repr

/-- Result of the copy loop: the bytes written to the output file, the
trace of `read` calls, and how the loop ended. -/
structure CResult where
  written : List Nat
  evs : List Ev
  stop : CopyEnd
deriving DecidableEq, Repr

/-- The bounded copy loop, lib.rs lines 163-180.  `remaining` counts down
from the declared file size; each `read` requests
`min(remaining, 8192)` bytes (the 8192-byte buffer).  The entry's content
stream is modelled by `avail`, the bytes it will deliver before signalling
end-of-stream (when `errAfter = false`) or a read error (`errAfter = true`);
a read obtains `min(requested, available)` bytes.  `writeFails` is the
outcome of `write_all`, whose error propagates via `?`. -/
def copyLoop (remaining : Nat) (avail : List Nat) (errAfter writeFails : Bool) :
    CResult :=
  if _h : remaining = 0 then ⟨[], [], CopyEnd.done⟩
  else
    let toRead := min remaining 8192
    match avail with
    | [] =>
      if errAfter then ⟨[], [Ev.read toRead 0], CopyEnd.readErr⟩
      else ⟨[], [Ev.read toRead 0], CopyEnd.eofEarly⟩
    | a :: as =>
      let n := min toRead (a :: as).length
      if writeFails then ⟨[], [Ev.read toRead n], CopyEnd.writeErr⟩
      else
        let r := copyLoop (remaining - n) ((a :: as).drop n) errAfter writeFails
        ⟨(a :: as).take n ++ r.written, Ev.read toRead n :: r.evs, r.stop⟩
termination_by remaining
decreasing_by
  have hn : 1 ≤ min (min remaining 8192) (a :: as).length := by
    simp [Nat.le_min]
    omega
  omega

/-- One payload entry header: name, declared size, raw mode bits
(lib.rs lines 129-131). -/
structure Entry where
  name : List Char
  fileSize : Nat
  mode : Nat
deriving DecidableEq, Repr

/-- One entry together with the outcomes of the external operations its
processing performs: the content stream (`avail`, `readErrAfter`, see
`copyLoop`) and the success of each fallible filesystem or reader call
whose error the source propagates with `?`. -/
structure EntryInput where
  entry : Entry
  avail : List Nat
  readErrAfter : Bool
  mkdirParentFails : Bool
  mkdirTargetFails : Bool
  createFileFails : Bool
  writeFails : Bool
  finishFails : Bool
deriving DecidableEq, Repr

/-- Result of processing one entry: the filesystem reached, the reader
events emitted, the bytes added to `total_bytes`, and whether an error
propagated out of the loop body via `?`. -/
structure EResult where
  fs : FS
  evs : List Ev
  bytes : Nat
  err : Bool
deriving DecidableEq, Repr

/-- The target path of a cleaned name: `self.output_dir.join(clean_name)`
(lib.rs line 141), with the cleaned name split into segments. -/
def targetPath (root : Path) (clean : List Char) : Path :=
  root ++ splitSegs clean

/-- One iteration of the entry loop, lib.rs lines 128-190 (after
`read_next` returned this entry's header): the skip test and `finish`,
prefix-stripping, parent-directory creation, type dispatch
(directory creation / bounded file copy / skip), and the final `finish`.
Every `?` in the source is modelled by an `err = true` result, which makes
the caller stop and propagate. -/
def processEntry (root : Path) (fs : FS) (inp : EntryInput) : EResult :=
  let name := inp.entry.name
  if skipName name then
    { fs := fs, evs := [Ev.finish], bytes := 0, err := inp.finishFails }
  else
    let clean := stripPayloadRoot name
    let target := targetPath root clean
    if inp.mkdirParentFails then
      { fs := fs, evs := [], bytes := 0, err := true }
    else
      let fs1 := mkdirAll fs target.dropLast
      match FileType.from_mode inp.entry.mode with
      | FileType.Directory =>
        if inp.mkdirTargetFails then
          { fs := fs1, evs := [], bytes := 0, err := true }
        else
          { fs := mkdirAll fs1 target, evs := [Ev.finish], bytes := 0,
            err := inp.finishFails }
      | FileType.Regular =>
        if 0 < inp.entry.fileSize then
          if inp.createFileFails then
            { fs := fs1, evs := [], bytes := 0, err := true }
          else
            let fs2 := setNode fs1 target (Node.file [])
            let r := copyLoop inp.entry.fileSize inp.avail inp.readErrAfter
              inp.writeFails
            match r.stop with
            | CopyEnd.writeErr =>
              { fs := fs2, evs := r.evs, bytes := 0, err := true }
            | _ =>
              { fs := setNode fs2 target (Node.file r.written),
                evs := r.evs ++ [Ev.finish], bytes := r.written.length,
                err := inp.finishFails }
        else
          { fs := fs1, evs := [Ev.finish], bytes := 0, err := inp.finishFails }
      | _ =>
        { fs := fs1, evs := [Ev.finish], bytes := 0, err := inp.finishFails }

/-- Result of a component's entry loop: filesystem, reader-event trace,
and whether an error propagated out of `extract_component_package`. -/
structure RResult where
  fs : FS
  evs : List Ev
  err : Bool
deriving DecidableEq, Repr

/-- The entry loop, lib.rs lines 128-190:
`while let Ok(Some(header)) = payload_reader.read_next() { .. }`.
The list models the headers the reader yields before it reports exhaustion
(and the per-entry operation outcomes); the final `readNext` event is the
call that ends the loop. -/
def runEntries (root : Path) (fs : FS) : List EntryInput → RResult
  | [] => { fs := fs, evs := [Ev.readNext], err := false }
  | inp :: rest =>
    let r := processEntry root fs inp
    if r.err then
      { fs := r.fs, evs := Ev.readNext :: r.evs, err := true }
    else
      let r2 := runEntries root r.fs rest
      { fs := r2.fs, evs := Ev.readNext :: (r.evs ++ r2.evs), err := r2.err }

/-- One component as consumed by `extract_component_package`: `payload` is
`some entries` when `payload_reader()` returned `Ok(Some(..))`, and `none`
otherwise (missing payload or reader error, both absorbed by the
`if let`, lib.rs line 124). -/
structure CompInput where
  payload : Option (List EntryInput)
deriving DecidableEq, Repr

/-- `extract_component_package`, lib.rs lines 109-196: metadata logging has
no effect on state; a missing payload contributes nothing and is not an
error; otherwise the entry loop runs. -/
def extractComponent (root : Path) (fs : FS) (c : CompInput) : RResult :=
  match c.payload with
  | none => { fs := fs, evs := [], err := false }
  | some entries => runEntries root fs entries

/-- Package flavor, `PkgFlavor` (component vs product). -/
inductive Flavor where
  | component
  | product
deriving DecidableEq, Repr

/-- A run's external inputs: whether `create_dir_all(output_dir)` and
`PkgReader::new` fail, the flavor, and the collaborator results
`root_component()` (fallible, optional) and `component_packages()`
(fallible list). -/
structure PkgInput where
  mkOutputRootFails : Bool
  containerOpenFails : Bool
  flavor : Flavor
  rootComponent : Except Unit (Option CompInput)
  componentList : Except Unit (List CompInput)
deriving Repr

/-- `extract_root_component`, lib.rs lines 79-90: a `root_component()`
error propagates via `?`; an absent root component is only warned about;
otherwise the component is extracted and its error propagates. -/
def extractRootComponent (root : Path) (fs : FS) (pkg : PkgInput) : FS × Bool :=
  match pkg.rootComponent with
  | Except.error _ => (fs, true)
  | Except.ok none => (fs, false)
  | Except.ok (some c) =>
    let r := extractComponent root fs c
    (r.fs, r.err)

/-- Helper for `extract_product_package`: the `for` loop over the
enumerated components; `extract_component_package(..)?` propagates the
first component error and stops. -/
def extractProductLoop (root : Path) : List CompInput → FS → FS × Bool
  | [], fs => (fs, false)
  | c :: cs, fs =>
    let r := extractComponent root fs c
    if r.err then (r.fs, true) else extractProductLoop root cs r.fs

/-- `extract_product_package`, lib.rs lines 92-107: an enumeration failure
is only logged (absorbed); otherwise every component is extracted in turn
and a component error propagates. -/
def extractProduct (root : Path) (fs : FS) (pkg : PkgInput) : FS × Bool :=
  match pkg.componentList with
  | Except.error _ => (fs, false)
  | Except.ok comps => extractProductLoop root comps fs

/-- The orchestrator `extract`, lib.rs lines 52-77: create the output
root (error propagates), open the container (error propagates), then
dispatch on the flavor.  The boolean is `true` exactly when the run
returns `Err`. -/
def extract (root : Path) (pkg : PkgInput) (fs : FS) : FS × Bool :=
  if pkg.mkOutputRootFails then (fs, true)
  else
    let fs0 := mkdirAll fs root
    if pkg.containerOpenFails then (fs0, true)
    else
      match pkg.flavor with
      | Flavor.component => extractRootComponent root fs0 pkg
      | Flavor.product => extractProduct root fs0 pkg

/-- Stated from the propagation policy as it actually is in the source:
whether processing this one entry makes `extract_component_package` return
`Err` (each disjunct is one `?` in lib.rs lines 133-190; mid-copy read
errors and early end-of-stream are absent because the source only logs
them and breaks). -/
def entryPropagates (inp : EntryInput) : Bool :=
  if skipName inp.entry.name then inp.finishFails
  else if inp.mkdirParentFails then true
  else
    match FileType.from_mode inp.entry.mode with
    | FileType.Directory => inp.mkdirTargetFails || inp.finishFails
    | FileType.Regular =>
      if 0 < inp.entry.fileSize then
        inp.createFileFails || (inp.writeFails && !inp.avail.isEmpty)
          || inp.finishFails
      else inp.finishFails
    | _ => inp.finishFails

/-- Whether a component's extraction returns `Err`: only possible when it
has a payload and some entry propagates an error. -/
def compPropagates (c : CompInput) : Bool :=
  match c.payload with
  | none => false
  | some es => es.any entryPropagates

/-- The amended propagation policy, stated from the spec's taxonomy but
corrected to the source: a run fails iff output-root creation fails,
container open/parse fails, the root-component lookup fails (component
flavor), or some entry of a reached component propagates a filesystem or
`finish` error; component enumeration failures and missing payloads stay
absorbed. -/
def runFailsSpec (pkg : PkgInput) : Bool :=
  pkg.mkOutputRootFails || pkg.containerOpenFails ||
    (match pkg.flavor with
     | Flavor.component =>
       match pkg.rootComponent with
       | Except.error _ => true
       | Except.ok none => false
       | Except.ok (some c) => compPropagates c
     | Flavor.product =>
       match pkg.componentList with
       | Except.error _ => false
       | Except.ok cs => cs.any compPropagates)

/-- The `(requested, obtained)` pairs of the `read` events of a trace. -/
def readPairs : List Ev → List (Nat × Nat)
  | [] => []
  | Ev.read r g :: rest => (r, g) :: readPairs rest
  | _ :: rest => readPairs rest

/-- The copy-loop invariant on a sequence of reads for a declared size:
each request is at most `min(remaining, 8192)` where `remaining` is the
declared size minus the bytes obtained so far, and no read obtains more
than it requested. -/
def reqsBounded (size : Nat) : List (Nat × Nat) → Bool
  | [] => true
  | (req, got) :: rest =>
    decide (req ≤ min size 8192) && decide (got ≤ req)
      && reqsBounded (size - got) rest

/-- Total bytes obtained by a sequence of reads. -/
def gotSum : List (Nat × Nat) → Nat
  | [] => 0
  | (_, got) :: rest => got + gotSum rest

/-- Checker for the finalization discipline: scanning a trace, `pending`
records that a `read_next` has happened with no `finish` since; a second
`read_next` while pending is a violation. -/
def fsepAux : List Ev → Bool → Bool
  | [], _ => true
  | Ev.readNext :: rest, pending => if pending then false else fsepAux rest true
  | Ev.finish :: rest, _ => fsepAux rest false
  | _ :: rest, pending => fsepAux rest pending

/-- A trace is well finalized when between any two `read_next` calls there
is at least one `finish` call. -/
def finishSeparated (t : List Ev) : Bool := fsepAux t false

/-- The pending state after scanning a trace that contains no `read_next`:
a `finish` clears it, other events keep it. -/
def pendAfter : List Ev → Bool → Bool
  | [], b => b
  | Ev.finish :: rest, _ => pendAfter rest false
  | _ :: rest, b => pendAfter rest b

/-! Helper lemmas. -/

theorem land_land_self (m k : Nat) : (m &&& k) &&& k = m &&& k := by
  apply Nat.eq_of_testBit_eq
  intro i
  simp [Nat.testBit_land, Bool.and_assoc]

theorem dropLead_eq_some_iff (p : List Char) :
    ∀ s r : List Char, dropLead p s = some r ↔ s = p ++ r := by
  induction p with
  | nil =>
    intro s r
    simp [dropLead]
  | cons c cs ih =>
    intro s r
    cases s with
    | nil => simp [dropLead]
    | cons a as =>
      by_cases hac : a = c
      · subst hac
        simp [dropLead, ih]
      · simp [dropLead, hac]

theorem dropLead_eq_none_iff (p s : List Char) :
    dropLead p s = none ↔ ∀ r, s ≠ p ++ r := by
  constructor
  · intro h r hr
    have := (dropLead_eq_some_iff p s r).mpr hr
    rw [h] at this
    exact Option.noConfusion this
  · intro h
    cases hd : dropLead p s with
    | none => rfl
    | some r => exact absurd ((dropLead_eq_some_iff p s r).mp hd) (h r)

/-! Theorems for the claims. -/

/-- C6: for every mode value `m`, `FileType.from_mode` is total and
deterministic (it is a Lean function), classifying the masked value gives
the same tag as classifying `m` itself (idempotence under the POSIX
file-type mask `0o170000`), and when the masked bits match none of the
seven known types the result is `Unknown` carrying exactly the masked
value. -/
theorem C6_classify_total_idempotent (m : Nat) :
    FileType.from_mode (m &&& 0o170000) = FileType.from_mode m ∧
    ((m &&& 0o170000) ∉
        [0o040000, 0o100000, 0o120000, 0o140000, 0o060000, 0o020000,
          0o010000] →
      FileType.from_mode m = FileType.Unknown (m &&& 0o170000)) := by
  constructor
  · unfold FileType.from_mode
    rw [land_land_self]
  · intro h
    simp only [List.mem_cons, List.not_mem_nil, or_false, not_or] at h
    obtain ⟨h1, h2, h3, h4, h5, h6, h7⟩ := h
    unfold FileType.from_mode
    split
    · exact absurd (by assumption) h1
    · exact absurd (by assumption) h2
    · exact absurd (by assumption) h3
    · exact absurd (by assumption) h4
    · exact absurd (by assumption) h5
    · exact absurd (by assumption) h6
    · exact absurd (by assumption) h7
    · rfl

/-- Witness for C6 at the concrete mode `0o000644`, whose masked bits are
`0`, matching no known type. -/
theorem C6_witness :
    FileType.from_mode (0o000644 &&& 0o170000) = FileType.from_mode 0o000644 ∧
    FileType.from_mode 0o000644 = FileType.Unknown 0 :=
  ⟨(C6_classify_total_idempotent 0o000644).1,
    by
      have h := (C6_classify_total_idempotent 0o000644).2 (by decide)
      rwa [show (0o000644 &&& 0o170000) = 0 by decide] at h⟩

/-- C7: normalization skips exactly the degenerate names (empty, `"."`,
the payload-root marker `"Payload"`); any other name has a leading
`"Payload/"` stripped when present and is returned unchanged otherwise. -/
theorem C7_normalize_spec (name : List Char) :
    (skipName name → normalizeName name = none) ∧
    (¬ skipName name →
      ((∃ r, name = payloadRootName ++ '/' :: r ∧ normalizeName name = some r)
        ∨ ((∀ r, name ≠ payloadRootName ++ '/' :: r) ∧
            normalizeName name = some name))) := by
  constructor
  · intro h
    simp [normalizeName, h]
  · intro h
    cases hd : dropLead (payloadRootName ++ ['/']) name with
    | some r =>
      left
      have := (dropLead_eq_some_iff _ name r).mp hd
      simp only [List.append_assoc, List.singleton_append] at this
      refine ⟨r, this, ?_⟩
      simp [normalizeName, h, stripPayloadRoot, hd]
    | none =>
      right
      have hnone := (dropLead_eq_none_iff _ name).mp hd
      constructor
      · intro r hr
        exact hnone r (by simpa using hr)
      · simp [normalizeName, h, stripPayloadRoot, hd]

/-- Witness for C7 at the concrete name `"Payload/a/b"`, which normalizes
to `"a/b"`. -/
theorem C7_witness :
    (∃ r, ['P', 'a', 'y', 'l', 'o', 'a', 'd', '/', 'a', '/', 'b'] =
        payloadRootName ++ '/' :: r ∧
        normalizeName ['P', 'a', 'y', 'l', 'o', 'a', 'd', '/', 'a', '/', 'b'] =
          some r)
      ∨ ((∀ r, ['P', 'a', 'y', 'l', 'o', 'a', 'd', '/', 'a', '/', 'b'] ≠
            payloadRootName ++ '/' :: r) ∧
          normalizeName ['P', 'a', 'y', 'l', 'o', 'a', 'd', '/', 'a', '/', 'b'] =
            some ['P', 'a', 'y', 'l', 'o', 'a', 'd', '/', 'a', '/', 'b']) :=
  (C7_normalize_spec _).2 (by decide)

theorem escapesAux_no_dotdot (segs : List Seg) :
    ∀ d, ['.', '.'] ∉ segs → escapesAux segs d = false := by
  induction segs with
  | nil => intro d _; rfl
  | cons s rest ih =>
    intro d h
    simp only [List.mem_cons, not_or] at h
    unfold escapesAux
    rw [if_neg (fun hh => h.1 hh.symm)]
    by_cases hs : s = ['.'] ∨ s = []
    · rw [if_pos hs]
      exact ih d h.2
    · rw [if_neg hs]
      exact ih (d + 1) h.2

/-- C1 counterexample: the raw name `"../x"` is accepted by the normalizer
(returned unchanged), and joining it onto the output root escapes the
root via `".."` traversal. -/
theorem C1_counterexample :
    normalizeName ['.', '.', '/', 'x'] = some ['.', '.', '/', 'x'] ∧
    targetEscapes ['.', '.', '/', 'x'] = true := by
  decide

/-- C1 (amended): the no-escape invariant holds only conditionally — the
normalizer performs no traversal sanitization, so the joined target path
stays under the output root exactly when the normalized name is not
absolute and contains no `".."` segment.  Under those two conditions every
accepted name yields a non-escaping target path. -/
theorem C1_amended_no_escape (name clean : List Char)
    (_hn : normalizeName name = some clean)
    (hdot : ['.', '.'] ∉ splitSegs clean)
    (habs : clean.head? ≠ some '/') :
    targetEscapes clean = false := by
  unfold targetEscapes
  split
  · simp at habs
  · exact escapesAux_no_dotdot _ 0 hdot

/-- Witness for C1 (amended) at the accepted name `"a/b"`. -/
theorem C1_witness : targetEscapes ['a', '/', 'b'] = false :=
  C1_amended_no_escape ['a', '/', 'b'] ['a', '/', 'b'] (by decide) (by decide)
    (by decide)

theorem lookup_setNode_self (fs : FS) (p : Path) (n : Node) :
    lookupFS (setNode fs p n) p = some n := by
  induction fs with
  | nil => simp [setNode, lookupFS]
  | cons qm rest ih =>
    obtain ⟨q, m⟩ := qm
    by_cases hq : q = p
    · simp [setNode, lookupFS, hq]
    · simp [setNode, lookupFS, hq, ih]

theorem lookup_setNode_ne (fs : FS) (p q : Path) (n : Node) (h : q ≠ p) :
    lookupFS (setNode fs p n) q = lookupFS fs q := by
  have hpq : ¬ p = q := fun hh => h hh.symm
  induction fs with
  | nil => simp only [setNode, lookupFS, if_neg hpq]
  | cons q0m rest ih =>
    obtain ⟨q0, m⟩ := q0m
    by_cases h0 : q0 = p
    · rw [show setNode ((q0, m) :: rest) p n = (p, n) :: rest by
        simp [setNode, h0]]
      simp only [lookupFS]
      rw [if_neg hpq, if_neg (fun hh => hpq (h0.symm.trans hh))]
    · simp only [setNode, if_neg h0, lookupFS]
      by_cases h1 : q0 = q
      · rw [if_pos h1, if_pos h1]
      · rw [if_neg h1, if_neg h1]
        exact ih

theorem lookup_mkdirAllAux (rest : List Seg) :
    ∀ (fs : FS) (done : Path) (q : Path),
      done.length + rest.length < q.length →
      lookupFS (mkdirAllAux fs done rest) q = lookupFS fs q := by
  induction rest with
  | nil => intro fs done q _; rfl
  | cons s rest' ih =>
    intro fs done q h
    simp only [List.length_cons] at h
    unfold mkdirAllAux
    rw [ih _ _ _ (by simp; omega)]
    exact lookup_setNode_ne _ _ _ _ (by
      intro hq
      have : q.length = done.length + 1 := by
        rw [hq]; simp
      omega)

theorem lookup_mkdirAll_of_length_lt (fs : FS) (p q : Path)
    (h : p.length < q.length) :
    lookupFS (mkdirAll fs p) q = lookupFS fs q := by
  unfold mkdirAll
  exact lookup_mkdirAllAux p fs [] q (by simpa using h)

theorem splitSegsAux_cons_ne (c : Char) (rest acc : List Char)
    (hc : c ≠ '/') :
    splitSegsAux (c :: rest) acc = splitSegsAux rest (c :: acc) := by
  conv_lhs => unfold splitSegsAux
  split
  · rename_i heq
    exact List.noConfusion heq
  · rename_i heq
    injection heq with h1 h2
    exact absurd h1 hc
  · rename_i heq
    injection heq with h1 h2
    rw [h1, h2]

theorem splitSegsAux_length_pos (s : List Char) :
    ∀ acc, 0 < (splitSegsAux s acc).length := by
  induction s with
  | nil => intro acc; simp [splitSegsAux]
  | cons c rest ih =>
    intro acc
    by_cases hc : c = '/'
    · subst hc
      simp [splitSegsAux]
    · rw [splitSegsAux_cons_ne c rest acc hc]
      exact ih _

theorem targetPath_ne_nil (root : Path) (clean : List Char) :
    targetPath root clean ≠ [] := by
  unfold targetPath splitSegs
  intro h
  have := splitSegsAux_length_pos clean []
  rw [List.append_eq_nil] at h
  rw [h.2] at this
  simp at this

theorem lookup_mkdirAll_dropLast (fs : FS) (q : Path) (hq : q ≠ []) :
    lookupFS (mkdirAll fs q.dropLast) q = lookupFS fs q := by
  apply lookup_mkdirAll_of_length_lt
  rw [List.length_dropLast]
  have : 0 < q.length := List.length_pos.mpr hq
  omega

/-- C3 counterexample: a `Symlink` entry named `"a/b"` processed on an
empty filesystem changes the filesystem — the unconditional
parent-directory creation (lib.rs lines 149-151) runs before the type
dispatch, so processing the entry is not free of filesystem actions. -/
theorem C3_counterexample :
    FileType.from_mode 0o120777 = FileType.Symlink ∧
    (processEntry [['o']] []
        ⟨⟨['a', '/', 'b'], 0, 0o120777⟩, [], false, false, false, false,
          false, false⟩).fs ≠ ([] : FS) := by
  decide

/-- C3 (amended): for an accepted entry whose tag is `Symlink`, `Socket`,
`BlockDevice`, `CharacterDevice`, `Fifo` or `Unknown`, the only filesystem
action is the unconditional parent-directory creation that precedes the
type dispatch; nothing is created at the target path itself, no content is
read (the trace is just the `finish` call), and no bytes are counted. -/
theorem C3_special_skipped (root : Path) (fs : FS) (inp : EntryInput)
    (hskip : ¬ skipName inp.entry.name)
    (hty : (FileType.from_mode inp.entry.mode).isSpecial = true)
    (hp : inp.mkdirParentFails = false) :
    processEntry root fs inp =
      { fs := mkdirAll fs
          (targetPath root (stripPayloadRoot inp.entry.name)).dropLast,
        evs := [Ev.finish], bytes := 0, err := inp.finishFails } ∧
    lookupFS (processEntry root fs inp).fs
        (targetPath root (stripPayloadRoot inp.entry.name)) =
      lookupFS fs (targetPath root (stripPayloadRoot inp.entry.name)) := by
  have hmain : processEntry root fs inp =
      { fs := mkdirAll fs
          (targetPath root (stripPayloadRoot inp.entry.name)).dropLast,
        evs := [Ev.finish], bytes := 0, err := inp.finishFails } := by
    cases hft : FileType.from_mode inp.entry.mode with
    | Directory => rw [hft] at hty; simp [FileType.isSpecial] at hty
    | Regular => rw [hft] at hty; simp [FileType.isSpecial] at hty
    | Symlink => simp [processEntry, hskip, hp, hft, targetPath]
    | Socket => simp [processEntry, hskip, hp, hft, targetPath]
    | BlockDevice => simp [processEntry, hskip, hp, hft, targetPath]
    | CharacterDevice => simp [processEntry, hskip, hp, hft, targetPath]
    | Fifo => simp [processEntry, hskip, hp, hft, targetPath]
    | Unknown raw => simp [processEntry, hskip, hp, hft, targetPath]
  refine ⟨hmain, ?_⟩
  rw [hmain]
  exact lookup_mkdirAll_dropLast fs _ (targetPath_ne_nil root _)

/-- Witness for C3 (amended) at a concrete `Fifo` entry. -/
theorem C3_witness :
    processEntry [['o']] []
        ⟨⟨['a'], 0, 0o010644⟩, [], false, false, false, false, false,
          false⟩ =
      { fs := mkdirAll [] (targetPath [['o']] (stripPayloadRoot ['a'])).dropLast,
        evs := [Ev.finish], bytes := 0, err := false } ∧
    lookupFS (processEntry [['o']] []
        ⟨⟨['a'], 0, 0o010644⟩, [], false, false, false, false, false,
          false⟩).fs
        (targetPath [['o']] (stripPayloadRoot ['a'])) =
      lookupFS [] (targetPath [['o']] (stripPayloadRoot ['a'])) :=
  C3_special_skipped [['o']] [] _ (by decide) (by decide) rfl

/-- C8: a `Regular` entry with declared size 0 causes no content read and
creates no file at the target path — only the unconditional parent
directory creation happens, the trace is just the `finish` call, and the
node at the target path is unchanged. -/
theorem C8_zero_size_regular (root : Path) (fs : FS) (inp : EntryInput)
    (hskip : ¬ skipName inp.entry.name)
    (hty : FileType.from_mode inp.entry.mode = FileType.Regular)
    (hsize : inp.entry.fileSize = 0)
    (hp : inp.mkdirParentFails = false) :
    processEntry root fs inp =
      { fs := mkdirAll fs
          (targetPath root (stripPayloadRoot inp.entry.name)).dropLast,
        evs := [Ev.finish], bytes := 0, err := inp.finishFails } ∧
    lookupFS (processEntry root fs inp).fs
        (targetPath root (stripPayloadRoot inp.entry.name)) =
      lookupFS fs (targetPath root (stripPayloadRoot inp.entry.name)) := by
  have hmain : processEntry root fs inp =
      { fs := mkdirAll fs
          (targetPath root (stripPayloadRoot inp.entry.name)).dropLast,
        evs := [Ev.finish], bytes := 0, err := inp.finishFails } := by
    simp [processEntry, hskip, hp, hty, hsize, targetPath]
  refine ⟨hmain, ?_⟩
  rw [hmain]
  exact lookup_mkdirAll_dropLast fs _ (targetPath_ne_nil root _)

/-- Witness for C8 at a concrete size-0 regular entry. -/
theorem C8_witness :
    processEntry [['o']] []
        ⟨⟨['f'], 0, 0o100644⟩, [], false, false, false, false, false,
          false⟩ =
      { fs := mkdirAll [] (targetPath [['o']] (stripPayloadRoot ['f'])).dropLast,
        evs := [Ev.finish], bytes := 0, err := false } ∧
    lookupFS (processEntry [['o']] []
        ⟨⟨['f'], 0, 0o100644⟩, [], false, false, false, false, false,
          false⟩).fs
        (targetPath [['o']] (stripPayloadRoot ['f'])) =
      lookupFS [] (targetPath [['o']] (stripPayloadRoot ['f'])) :=
  C8_zero_size_regular [['o']] [] _ (by decide) (by decide) rfl rfl

theorem copyLoop_stop_ne_writeErr (r : Nat) (a : List Nat) (e w : Bool) :
    w = false → (copyLoop r a e w).stop ≠ CopyEnd.writeErr := by
  induction r, a, e, w using copyLoop.induct with
  | case1 a e w => intro _; simp [copyLoop]
  | case2 r w h => intro _; simp [copyLoop, h]
  | case3 r e w h he => intro _; simp [copyLoop, h, he]
  | case4 r e h a as => intro hw; exact absurd hw (by simp)
  | case5 r e w h tR a as n hnw ih =>
    intro hw
    have hn : n = min (min r 8192) (a :: as).length := rfl
    rw [hn] at ih
    rw [copyLoop, dif_neg h]
    simp only [if_neg hnw]
    exact ih hw

theorem copyLoop_writeErr_of (r : Nat) (a : List Nat) (e : Bool)
    (hr : r ≠ 0) (ha : a ≠ []) :
    (copyLoop r a e true).stop = CopyEnd.writeErr := by
  cases a with
  | nil => exact absurd rfl ha
  | cons x xs => simp [copyLoop, hr]

theorem copyLoop_written_of_le (r : Nat) (a : List Nat) (e w : Bool) :
    w = false → a.length ≤ r → (copyLoop r a e w).written = a := by
  induction r, a, e, w using copyLoop.induct with
  | case1 a e w =>
    intro _ hlen
    have ha : a = [] := List.eq_nil_of_length_eq_zero (by omega)
    simp [copyLoop, ha]
  | case2 r w h => intro _ _; simp [copyLoop, h]
  | case3 r e w h he => intro _ _; simp [copyLoop, h, he]
  | case4 r e h a as => intro hw _; exact absurd hw (by simp)
  | case5 r e w h tR a as n hnw ih =>
    intro hw hlen
    have hn : n = min (min r 8192) (a :: as).length := rfl
    rw [hn] at ih
    rw [copyLoop, dif_neg h]
    simp only [if_neg hnw]
    rw [ih hw (by simp only [List.length_drop]; omega)]
    exact List.take_append_drop _ _

theorem copyLoop_stop_done_of_eq (r : Nat) (a : List Nat) (e w : Bool) :
    w = false → a.length = r → (copyLoop r a e w).stop = CopyEnd.done := by
  induction r, a, e, w using copyLoop.induct with
  | case1 a e w => intro _ _; simp [copyLoop]
  | case2 r w h => intro _ hlen; simp at hlen; omega
  | case3 r e w h he => intro _ hlen; simp at hlen; omega
  | case4 r e h a as => intro hw _; exact absurd hw (by simp)
  | case5 r e w h tR a as n hnw ih =>
    intro hw hlen
    have hn : n = min (min r 8192) (a :: as).length := rfl
    rw [hn] at ih
    rw [copyLoop, dif_neg h]
    simp only [if_neg hnw]
    exact ih hw (by simp only [List.length_drop]; omega)

theorem copyLoop_stop_eof_of_lt (r : Nat) (a : List Nat) (e w : Bool) :
    w = false → e = false → a.length < r →
    (copyLoop r a e w).stop = CopyEnd.eofEarly := by
  induction r, a, e, w using copyLoop.induct with
  | case1 a e w => intro _ _ hlen; exact absurd hlen (by omega)
  | case2 r w h => intro _ he _; exact absurd he (by simp)
  | case3 r e w h he => intro _ _ _; simp [copyLoop, h, he]
  | case4 r e h a as => intro hw _ _; exact absurd hw (by simp)
  | case5 r e w h tR a as n hnw ih =>
    intro hw he hlen
    have hn : n = min (min r 8192) (a :: as).length := rfl
    rw [hn] at ih
    rw [copyLoop, dif_neg h]
    simp only [if_neg hnw]
    exact ih hw he (by simp only [List.length_drop]; omega)

theorem copyLoop_reqs (r : Nat) (a : List Nat) (e w : Bool) :
    reqsBounded r (readPairs (copyLoop r a e w).evs) = true := by
  induction r, a, e, w using copyLoop.induct with
  | case1 a e w => simp [copyLoop, readPairs, reqsBounded]
  | case2 r w h => simp [copyLoop, h, readPairs, reqsBounded]
  | case3 r e w h he => simp [copyLoop, h, he, readPairs, reqsBounded]
  | case4 r e h a as =>
    rw [copyLoop, dif_neg h]
    simp [readPairs, reqsBounded]
  | case5 r e w h tR a as n hnw ih =>
    have hn : n = min (min r 8192) (a :: as).length := rfl
    rw [hn] at ih
    rw [copyLoop, dif_neg h]
    simp only [if_neg hnw, readPairs, reqsBounded]
    rw [ih]
    simp only [Bool.and_true, Bool.and_eq_true, decide_eq_true_eq]
    exact ⟨le_refl _, by omega⟩

theorem reqsBounded_gotSum (rs : List (Nat × Nat)) :
    ∀ size, reqsBounded size rs = true → gotSum rs ≤ size := by
  induction rs with
  | nil => intro size _; simp [gotSum]
  | cons p rest ih =>
    intro size h
    obtain ⟨req, got⟩ := p
    simp only [reqsBounded, Bool.and_eq_true, decide_eq_true_eq] at h
    obtain ⟨⟨h1, h2⟩, h3⟩ := h
    have := ih _ h3
    simp only [gotSum]
    omega

theorem reqsBounded_req_le (rs : List (Nat × Nat)) :
    ∀ size, reqsBounded size rs = true → ∀ pr ∈ rs, pr.1 ≤ 8192 := by
  induction rs with
  | nil => intro size _ pr hpr; simp at hpr
  | cons p rest ih =>
    intro size h pr hpr
    obtain ⟨req, got⟩ := p
    simp only [reqsBounded, Bool.and_eq_true, decide_eq_true_eq] at h
    obtain ⟨⟨h1, h2⟩, h3⟩ := h
    rcases List.mem_cons.mp hpr with hh | hh
    · subst hh
      simp only
      omega
    · exact ih _ h3 pr hh

theorem copyLoop_evs_reads (r : Nat) (a : List Nat) (e w : Bool) :
    Ev.readNext ∉ (copyLoop r a e w).evs ∧
      Ev.finish ∉ (copyLoop r a e w).evs := by
  induction r, a, e, w using copyLoop.induct with
  | case1 a e w => simp [copyLoop]
  | case2 r w h => simp [copyLoop, h]
  | case3 r e w h he => simp [copyLoop, h, he]
  | case4 r e h a as =>
    rw [copyLoop, dif_neg h]
    simp
  | case5 r e w h tR a as n hnw ih =>
    have hn : n = min (min r 8192) (a :: as).length := rfl
    rw [hn] at ih
    rw [copyLoop, dif_neg h]
    simp only [if_neg hnw]
    constructor
    · simp only [List.mem_cons, not_or]
      exact ⟨by simp, ih.1⟩
    · simp only [List.mem_cons, not_or]
      exact ⟨by simp, ih.2⟩

theorem readPairs_append (l1 l2 : List Ev) :
    readPairs (l1 ++ l2) = readPairs l1 ++ readPairs l2 := by
  induction l1 with
  | nil => rfl
  | cons ev rest ih =>
    cases ev <;> simp [readPairs, ih]

theorem processEntry_regular_pos (root : Path) (fs : FS) (inp : EntryInput)
    (hskip : ¬ skipName inp.entry.name)
    (hty : FileType.from_mode inp.entry.mode = FileType.Regular)
    (hpos : 0 < inp.entry.fileSize)
    (hp : inp.mkdirParentFails = false)
    (hc : inp.createFileFails = false)
    (hnw : (copyLoop inp.entry.fileSize inp.avail inp.readErrAfter
        inp.writeFails).stop ≠ CopyEnd.writeErr) :
    processEntry root fs inp =
      { fs := setNode
          (setNode
            (mkdirAll fs
              (targetPath root (stripPayloadRoot inp.entry.name)).dropLast)
            (targetPath root (stripPayloadRoot inp.entry.name)) (Node.file []))
          (targetPath root (stripPayloadRoot inp.entry.name))
          (Node.file (copyLoop inp.entry.fileSize inp.avail inp.readErrAfter
            inp.writeFails).written),
        evs := (copyLoop inp.entry.fileSize inp.avail inp.readErrAfter
          inp.writeFails).evs ++ [Ev.finish],
        bytes := (copyLoop inp.entry.fileSize inp.avail inp.readErrAfter
          inp.writeFails).written.length,
        err := inp.finishFails } := by
  cases hs : (copyLoop inp.entry.fileSize inp.avail inp.readErrAfter
      inp.writeFails).stop with
  | writeErr => exact absurd hs hnw
  | done => simp [processEntry, hskip, hp, hty, hpos, hc, hs, targetPath]
  | eofEarly => simp [processEntry, hskip, hp, hty, hpos, hc, hs, targetPath]
  | readErr => simp [processEntry, hskip, hp, hty, hpos, hc, hs, targetPath]

/-- C4: a `Regular` entry of declared size `N > 0` whose content stream
delivers exactly `N` bytes without error is materialised as a truncating
file create followed by a bounded copy: the node at the target path ends
up holding exactly the stream's bytes, the byte counter equals `N`, no
error propagates (beyond a failing `finish`), and every read request is
bounded by the 8192-byte buffer. -/
theorem C4_exact_roundtrip (root : Path) (fs : FS) (inp : EntryInput)
    (hskip : ¬ skipName inp.entry.name)
    (hty : FileType.from_mode inp.entry.mode = FileType.Regular)
    (hsize : inp.entry.fileSize = inp.avail.length)
    (hpos : 0 < inp.entry.fileSize)
    (hp : inp.mkdirParentFails = false)
    (hc : inp.createFileFails = false)
    (hw : inp.writeFails = false) :
    lookupFS (processEntry root fs inp).fs
        (targetPath root (stripPayloadRoot inp.entry.name)) =
      some (Node.file inp.avail) ∧
    (processEntry root fs inp).bytes = inp.entry.fileSize ∧
    (processEntry root fs inp).err = inp.finishFails ∧
    (∀ pr ∈ readPairs (processEntry root fs inp).evs, pr.1 ≤ 8192) := by
  have hstop := copyLoop_stop_done_of_eq inp.entry.fileSize inp.avail
    inp.readErrAfter inp.writeFails hw hsize.symm
  have hwr := copyLoop_written_of_le inp.entry.fileSize inp.avail
    inp.readErrAfter inp.writeFails hw (le_of_eq hsize.symm)
  have hmain := processEntry_regular_pos root fs inp hskip hty hpos hp hc
    (by rw [hstop]; simp)
  rw [hmain]
  refine ⟨?_, ?_, rfl, ?_⟩
  · rw [hwr]
    exact lookup_setNode_self _ _ _
  · show (copyLoop inp.entry.fileSize inp.avail inp.readErrAfter
      inp.writeFails).written.length = inp.entry.fileSize
    rw [hwr, hsize]
  · intro pr hpr
    show pr.1 ≤ 8192
    have : readPairs ((copyLoop inp.entry.fileSize inp.avail inp.readErrAfter
        inp.writeFails).evs ++ [Ev.finish]) =
        readPairs (copyLoop inp.entry.fileSize inp.avail inp.readErrAfter
          inp.writeFails).evs := by
      rw [readPairs_append]
      simp [readPairs]
    rw [this] at hpr
    exact reqsBounded_req_le _ _ (copyLoop_reqs inp.entry.fileSize inp.avail
      inp.readErrAfter inp.writeFails) pr hpr

/-- Witness for C4 at a concrete 3-byte regular entry with content
`[10, 20, 30]`. -/
theorem C4_witness :
    lookupFS (processEntry [['o']] []
        ⟨⟨['f'], 3, 0o100644⟩, [10, 20, 30], false, false, false, false,
          false, false⟩).fs
        (targetPath [['o']] (stripPayloadRoot ['f'])) =
      some (Node.file [10, 20, 30]) ∧
    (processEntry [['o']] []
        ⟨⟨['f'], 3, 0o100644⟩, [10, 20, 30], false, false, false, false,
          false, false⟩).bytes = 3 ∧
    (processEntry [['o']] []
        ⟨⟨['f'], 3, 0o100644⟩, [10, 20, 30], false, false, false, false,
          false, false⟩).err = false ∧
    (∀ pr ∈ readPairs (processEntry [['o']] []
        ⟨⟨['f'], 3, 0o100644⟩, [10, 20, 30], false, false, false, false,
          false, false⟩).evs, pr.1 ≤ 8192) :=
  C4_exact_roundtrip [['o']] [] _ (by decide) (by decide) rfl (by decide)
    rfl rfl rfl

/-- C5: a `Regular` entry whose stream signals end-of-stream after `k`
bytes with `k` smaller than the declared size is truncated silently: the
copy ends without a propagating error, the file holds exactly those `k`
bytes, and the entry completes successfully. -/
theorem C5_early_truncation (root : Path) (fs : FS) (inp : EntryInput)
    (hskip : ¬ skipName inp.entry.name)
    (hty : FileType.from_mode inp.entry.mode = FileType.Regular)
    (hk : inp.avail.length < inp.entry.fileSize)
    (heof : inp.readErrAfter = false)
    (hp : inp.mkdirParentFails = false)
    (hc : inp.createFileFails = false)
    (hw : inp.writeFails = false)
    (hf : inp.finishFails = false) :
    lookupFS (processEntry root fs inp).fs
        (targetPath root (stripPayloadRoot inp.entry.name)) =
      some (Node.file inp.avail) ∧
    (processEntry root fs inp).bytes = inp.avail.length ∧
    (processEntry root fs inp).err = false := by
  have hstop := copyLoop_stop_eof_of_lt inp.entry.fileSize inp.avail
    inp.readErrAfter inp.writeFails hw heof hk
  have hwr := copyLoop_written_of_le inp.entry.fileSize inp.avail
    inp.readErrAfter inp.writeFails hw (le_of_lt hk)
  have hmain := processEntry_regular_pos root fs inp hskip hty
    (Nat.lt_of_le_of_lt (Nat.zero_le _) hk) hp hc (by rw [hstop]; simp)
  rw [hmain]
  refine ⟨?_, ?_, hf⟩
  · rw [hwr]
    exact lookup_setNode_self _ _ _
  · show (copyLoop inp.entry.fileSize inp.avail inp.readErrAfter
      inp.writeFails).written.length = inp.avail.length
    rw [hwr]

/-- Witness for C5: declared size 5, stream ends after 2 bytes. -/
theorem C5_witness :
    lookupFS (processEntry [['o']] []
        ⟨⟨['f'], 5, 0o100644⟩, [10, 20], false, false, false, false,
          false, false⟩).fs
        (targetPath [['o']] (stripPayloadRoot ['f'])) =
      some (Node.file [10, 20]) ∧
    (processEntry [['o']] []
        ⟨⟨['f'], 5, 0o100644⟩, [10, 20], false, false, false, false,
          false, false⟩).bytes = 2 ∧
    (processEntry [['o']] []
        ⟨⟨['f'], 5, 0o100644⟩, [10, 20], false, false, false, false,
          false, false⟩).err = false :=
  C5_early_truncation [['o']] [] _ (by decide) (by decide) (by decide) rfl
    rfl rfl rfl rfl

theorem processEntry_readPairs_cases (root : Path) (fs : FS)
    (inp : EntryInput) :
    readPairs (processEntry root fs inp).evs = [] ∨
      readPairs (processEntry root fs inp).evs =
        readPairs (copyLoop inp.entry.fileSize inp.avail inp.readErrAfter
          inp.writeFails).evs := by
  by_cases hsk : skipName inp.entry.name
  · left; simp [processEntry, hsk, readPairs]
  by_cases hmp : inp.mkdirParentFails = true
  · left; simp [processEntry, hsk, hmp, readPairs]
  cases hft : FileType.from_mode inp.entry.mode with
  | Directory =>
    by_cases hmt : inp.mkdirTargetFails = true
    · left; simp [processEntry, hsk, hmp, hft, hmt, readPairs]
    · left; simp [processEntry, hsk, hmp, hft, hmt, readPairs]
  | Regular =>
    by_cases hpos : 0 < inp.entry.fileSize
    · by_cases hcf : inp.createFileFails = true
      · left; simp [processEntry, hsk, hmp, hft, hpos, hcf, readPairs]
      · cases hst : (copyLoop inp.entry.fileSize inp.avail inp.readErrAfter
            inp.writeFails).stop with
        | writeErr =>
          right
          simp [processEntry, hsk, hmp, hft, hpos, hcf, hst, readPairs]
        | done =>
          right
          simp [processEntry, hsk, hmp, hft, hpos, hcf, hst, readPairs,
            readPairs_append]
        | eofEarly =>
          right
          simp [processEntry, hsk, hmp, hft, hpos, hcf, hst, readPairs,
            readPairs_append]
        | readErr =>
          right
          simp [processEntry, hsk, hmp, hft, hpos, hcf, hst, readPairs,
            readPairs_append]
    · left; simp [processEntry, hsk, hmp, hft, hpos, readPairs]
  | Symlink => left; simp [processEntry, hsk, hmp, hft, readPairs]
  | Socket => left; simp [processEntry, hsk, hmp, hft, readPairs]
  | BlockDevice => left; simp [processEntry, hsk, hmp, hft, readPairs]
  | CharacterDevice => left; simp [processEntry, hsk, hmp, hft, readPairs]
  | Fifo => left; simp [processEntry, hsk, hmp, hft, readPairs]
  | Unknown raw => left; simp [processEntry, hsk, hmp, hft, readPairs]

/-- C10: for every entry, the copy loop's read requests obey the bound
`min(remaining, 8192)` — each request is at most 8192 bytes and at most
what remains of the declared size — and consequently the total number of
bytes obtained from the entry's content stream never exceeds the declared
file size. -/
theorem C10_bounded_reads (root : Path) (fs : FS) (inp : EntryInput) :
    reqsBounded inp.entry.fileSize
        (readPairs (processEntry root fs inp).evs) = true ∧
    gotSum (readPairs (processEntry root fs inp).evs) ≤
      inp.entry.fileSize := by
  rcases processEntry_readPairs_cases root fs inp with hc | hc <;> rw [hc]
  · exact ⟨rfl, Nat.zero_le _⟩
  · refine ⟨copyLoop_reqs _ _ _ _, ?_⟩
    exact reqsBounded_gotSum _ _ (copyLoop_reqs _ _ _ _)

theorem copyLoop_nil_stop (r : Nat) (e w : Bool) (hr : r ≠ 0) :
    (copyLoop r [] e w).stop =
      (if e then CopyEnd.readErr else CopyEnd.eofEarly) := by
  rw [copyLoop, dif_neg hr]
  by_cases he : e = true <;> simp [he]

theorem copyLoop_stop_writeErr_iff (r : Nat) (a : List Nat) (e w : Bool)
    (hr : r ≠ 0) :
    (copyLoop r a e w).stop = CopyEnd.writeErr ↔ (w = true ∧ a ≠ []) := by
  constructor
  · intro hst
    refine ⟨?_, ?_⟩
    · by_contra hw
      exact copyLoop_stop_ne_writeErr r a e w (by simpa using hw) hst
    · intro ha
      rw [ha, copyLoop_nil_stop r e w hr] at hst
      revert hst
      by_cases he : e = true <;> simp [he]
  · rintro ⟨hw, ha⟩
    rw [hw]
    exact copyLoop_writeErr_of r a e hr ha

theorem processEntry_err_regular_pos (root : Path) (fs : FS)
    (inp : EntryInput)
    (hsk : ¬ skipName inp.entry.name)
    (hmp : inp.mkdirParentFails = false)
    (hft : FileType.from_mode inp.entry.mode = FileType.Regular)
    (hpos : 0 < inp.entry.fileSize)
    (hcf : inp.createFileFails = false) :
    (processEntry root fs inp).err =
      if (copyLoop inp.entry.fileSize inp.avail inp.readErrAfter
          inp.writeFails).stop = CopyEnd.writeErr
      then true else inp.finishFails := by
  cases hst : (copyLoop inp.entry.fileSize inp.avail inp.readErrAfter
      inp.writeFails).stop with
  | writeErr => simp [processEntry, hsk, hmp, hft, hpos, hcf, hst]
  | done => simp [processEntry, hsk, hmp, hft, hpos, hcf, hst]
  | eofEarly => simp [processEntry, hsk, hmp, hft, hpos, hcf, hst]
  | readErr => simp [processEntry, hsk, hmp, hft, hpos, hcf, hst]

theorem processEntry_err (root : Path) (fs : FS) (inp : EntryInput) :
    (processEntry root fs inp).err = entryPropagates inp := by
  by_cases hsk : skipName inp.entry.name
  · simp [processEntry, entryPropagates, hsk]
  by_cases hmp : inp.mkdirParentFails = true
  · simp [processEntry, entryPropagates, hsk, hmp]
  have hmp' : inp.mkdirParentFails = false := by simpa using hmp
  cases hft : FileType.from_mode inp.entry.mode with
  | Directory =>
    by_cases hmt : inp.mkdirTargetFails = true
    · simp [processEntry, entryPropagates, hsk, hmp', hft, hmt]
    · simp [processEntry, entryPropagates, hsk, hmp', hft, hmt]
  | Regular =>
    by_cases hpos : 0 < inp.entry.fileSize
    · by_cases hcf : inp.createFileFails = true
      · simp [processEntry, entryPropagates, hsk, hmp', hft, hpos, hcf]
      · have hcf' : inp.createFileFails = false := by simpa using hcf
        rw [processEntry_err_regular_pos root fs inp hsk hmp' hft hpos hcf']
        have hiff := copyLoop_stop_writeErr_iff inp.entry.fileSize inp.avail
          inp.readErrAfter inp.writeFails (by omega)
        simp only [entryPropagates, if_neg hsk, hmp', Bool.false_eq_true,
          if_false, hft, if_pos hpos, hcf', Bool.false_or]
        by_cases hcond : inp.writeFails = true ∧ inp.avail ≠ []
        · rw [if_pos (hiff.mpr hcond)]
          have hne : inp.avail.isEmpty = false := by
            cases hav : inp.avail with
            | nil => exact absurd hav hcond.2
            | cons x xs => rfl
          simp [hcond.1, hne]
        · rw [if_neg (fun hh => hcond (hiff.mp hh))]
          rcases not_and_or.mp hcond with hw | ha
          · simp [show inp.writeFails = false by simpa using hw]
          · have hav : inp.avail = [] := not_not.mp ha
            simp [hav]
    · simp [processEntry, entryPropagates, hsk, hmp', hft, hpos]
  | Symlink => simp [processEntry, entryPropagates, hsk, hmp', hft]
  | Socket => simp [processEntry, entryPropagates, hsk, hmp', hft]
  | BlockDevice => simp [processEntry, entryPropagates, hsk, hmp', hft]
  | CharacterDevice => simp [processEntry, entryPropagates, hsk, hmp', hft]
  | Fifo => simp [processEntry, entryPropagates, hsk, hmp', hft]
  | Unknown raw => simp [processEntry, entryPropagates, hsk, hmp', hft]

theorem runEntries_err (root : Path) (es : List EntryInput) :
    ∀ fs : FS, (runEntries root fs es).err = es.any entryPropagates := by
  induction es with
  | nil => intro fs; simp [runEntries]
  | cons inp rest ih =>
    intro fs
    simp only [runEntries, List.any_cons]
    by_cases he : (processEntry root fs inp).err = true
    · have hep : entryPropagates inp = true := by
        rw [← processEntry_err root fs inp]; exact he
      simp [he, hep]
    · have he' : (processEntry root fs inp).err = false := by simpa using he
      have hep : entryPropagates inp = false := by
        rw [← processEntry_err root fs inp]; exact he'
      simp [he', hep, ih]

theorem extractComponent_err (root : Path) (fs : FS) (c : CompInput) :
    (extractComponent root fs c).err = compPropagates c := by
  cases hp : c.payload with
  | none => simp [extractComponent, compPropagates, hp]
  | some es => simp [extractComponent, compPropagates, hp, runEntries_err]

theorem extractProductLoop_err (root : Path) (cs : List CompInput) :
    ∀ fs : FS, (extractProductLoop root cs fs).2 = cs.any compPropagates := by
  induction cs with
  | nil => intro fs; simp [extractProductLoop]
  | cons c cs' ih =>
    intro fs
    simp only [extractProductLoop, List.any_cons]
    by_cases he : (extractComponent root fs c).err = true
    · have hcp : compPropagates c = true := by
        rw [← extractComponent_err root fs c]; exact he
      simp [he, hcp]
    · have he' : (extractComponent root fs c).err = false := by simpa using he
      have hcp : compPropagates c = false := by
        rw [← extractComponent_err root fs c]; exact he'
      simp [he', hcp, ih]

/-- C2 counterexample: a run in which the output root is created and the
container opens fine, but one regular entry's `File::create` fails,
returns an error — per-entry filesystem failures propagate through
`extract_component_package(..)?` up to `extract`, contradicting the claim
that only output-root creation and container open/parse failures are
fatal. -/
theorem C2_counterexample :
    (PkgInput.mk false false Flavor.component
        (Except.ok (some ⟨some [⟨⟨['f'], 1, 0o100644⟩, [7], false, false,
          false, true, false, false⟩]⟩))
        (Except.ok [])).mkOutputRootFails = false ∧
    (PkgInput.mk false false Flavor.component
        (Except.ok (some ⟨some [⟨⟨['f'], 1, 0o100644⟩, [7], false, false,
          false, true, false, false⟩]⟩))
        (Except.ok [])).containerOpenFails = false ∧
    (extract [['o']]
        (PkgInput.mk false false Flavor.component
          (Except.ok (some ⟨some [⟨⟨['f'], 1, 0o100644⟩, [7], false, false,
            false, true, false, false⟩]⟩))
          (Except.ok [])) []).2 = true := by
  refine ⟨rfl, rfl, ?_⟩
  decide

/-- C2 (amended): the exact propagation policy of the source — a run
returns an error iff output-root creation fails, the container fails to
open/parse, the root-component lookup fails (component flavor), or some
entry of a reached component propagates a filesystem or finalization
error (parent-directory creation, directory creation, file creation, file
write, or `finish`); component-enumeration failures, missing payloads,
missing root components, mid-copy read errors and early end-of-stream
remain absorbed. -/
theorem C2_amended_propagation (root : Path) (pkg : PkgInput) (fs : FS) :
    (extract root pkg fs).2 = runFailsSpec pkg := by
  unfold extract runFailsSpec
  by_cases h1 : pkg.mkOutputRootFails = true
  · simp [h1]
  · have h1' : pkg.mkOutputRootFails = false := by simpa using h1
    by_cases h2 : pkg.containerOpenFails = true
    · simp [h1', h2]
    · have h2' : pkg.containerOpenFails = false := by simpa using h2
      simp only [h1', h2', Bool.false_eq_true, if_false, Bool.false_or]
      cases hf : pkg.flavor with
      | component =>
        unfold extractRootComponent
        cases hrc : pkg.rootComponent with
        | error u => simp
        | ok oc =>
          cases oc with
          | none => simp
          | some c => simp [extractComponent_err]
      | product =>
        unfold extractProduct
        cases hcl : pkg.componentList with
        | error u => simp
        | ok cs => simp [extractProductLoop_err]

theorem fsep_no_rn (l : List Ev) :
    ∀ b, Ev.readNext ∉ l → fsepAux l b = true := by
  induction l with
  | nil => intro b _; rfl
  | cons ev rest ih =>
    intro b h
    simp only [List.mem_cons, not_or] at h
    cases ev with
    | readNext => exact absurd rfl h.1
    | finish => exact ih false h.2
    | read r g => exact ih b h.2

theorem fsep_append_finish (l : List Ev) :
    ∀ (rest : List Ev) (b : Bool), Ev.readNext ∉ l →
      fsepAux (l ++ (Ev.finish :: rest)) b = fsepAux rest false := by
  induction l with
  | nil => intro rest b _; simp [fsepAux]
  | cons ev l' ih =>
    intro rest b h
    simp only [List.mem_cons, not_or] at h
    cases ev with
    | readNext => exact absurd rfl h.1
    | finish =>
      simp only [List.cons_append]
      show fsepAux (l' ++ (Ev.finish :: rest)) false = fsepAux rest false
      exact ih rest false h.2
    | read r g =>
      simp only [List.cons_append]
      show fsepAux (l' ++ (Ev.finish :: rest)) b = fsepAux rest false
      exact ih rest b h.2

theorem processEntry_evs_props (root : Path) (fs : FS) (inp : EntryInput) :
    Ev.readNext ∉ (processEntry root fs inp).evs ∧
      ((processEntry root fs inp).err = false →
        ∃ l, (processEntry root fs inp).evs = l ++ [Ev.finish] ∧
          Ev.readNext ∉ l) := by
  by_cases hsk : skipName inp.entry.name
  · refine ⟨by simp [processEntry, hsk], fun _ => ⟨[], ?_, by simp⟩⟩
    simp [processEntry, hsk]
  by_cases hmp : inp.mkdirParentFails = true
  · refine ⟨by simp [processEntry, hsk, hmp], fun h => ?_⟩
    rw [show (processEntry root fs inp).err = true by
      simp [processEntry, hsk, hmp]] at h
    exact absurd h (by simp)
  have hmp' : inp.mkdirParentFails = false := by simpa using hmp
  cases hft : FileType.from_mode inp.entry.mode with
  | Directory =>
    by_cases hmt : inp.mkdirTargetFails = true
    · refine ⟨by simp [processEntry, hsk, hmp', hft, hmt], fun h => ?_⟩
      rw [show (processEntry root fs inp).err = true by
        simp [processEntry, hsk, hmp', hft, hmt]] at h
      exact absurd h (by simp)
    · refine ⟨by simp [processEntry, hsk, hmp', hft, hmt],
        fun _ => ⟨[], ?_, by simp⟩⟩
      simp [processEntry, hsk, hmp', hft, hmt]
  | Regular =>
    by_cases hpos : 0 < inp.entry.fileSize
    · by_cases hcf : inp.createFileFails = true
      · refine ⟨by simp [processEntry, hsk, hmp', hft, hpos, hcf],
          fun h => ?_⟩
        rw [show (processEntry root fs inp).err = true by
          simp [processEntry, hsk, hmp', hft, hpos, hcf]] at h
        exact absurd h (by simp)
      · have hrd := copyLoop_evs_reads inp.entry.fileSize inp.avail
          inp.readErrAfter inp.writeFails
        cases hst : (copyLoop inp.entry.fileSize inp.avail inp.readErrAfter
            inp.writeFails).stop with
        | writeErr =>
          refine ⟨?_, fun h => ?_⟩
          · simp only [processEntry, if_neg hsk, hmp', Bool.false_eq_true,
              if_false, hft, if_pos hpos, hcf, hst]
            simpa using hrd.1
          · rw [show (processEntry root fs inp).err = true by
              simp [processEntry, hsk, hmp', hft, hpos, hcf, hst]] at h
            exact absurd h (by simp)
        | done =>
          refine ⟨?_, fun _ => ⟨(copyLoop inp.entry.fileSize inp.avail
            inp.readErrAfter inp.writeFails).evs, ?_, hrd.1⟩⟩
          · simp only [processEntry, if_neg hsk, hmp', Bool.false_eq_true,
              if_false, hft, if_pos hpos, hcf, hst]
            simp [hrd.1]
          · simp [processEntry, hsk, hmp', hft, hpos, hcf, hst]
        | eofEarly =>
          refine ⟨?_, fun _ => ⟨(copyLoop inp.entry.fileSize inp.avail
            inp.readErrAfter inp.writeFails).evs, ?_, hrd.1⟩⟩
          · simp only [processEntry, if_neg hsk, hmp', Bool.false_eq_true,
              if_false, hft, if_pos hpos, hcf, hst]
            simp [hrd.1]
          · simp [processEntry, hsk, hmp', hft, hpos, hcf, hst]
        | readErr =>
          refine ⟨?_, fun _ => ⟨(copyLoop inp.entry.fileSize inp.avail
            inp.readErrAfter inp.writeFails).evs, ?_, hrd.1⟩⟩
          · simp only [processEntry, if_neg hsk, hmp', Bool.false_eq_true,
              if_false, hft, if_pos hpos, hcf, hst]
            simp [hrd.1]
          · simp [processEntry, hsk, hmp', hft, hpos, hcf, hst]
    · refine ⟨by simp [processEntry, hsk, hmp', hft, hpos],
        fun _ => ⟨[], ?_, by simp⟩⟩
      simp [processEntry, hsk, hmp', hft, hpos]
  | Symlink =>
    refine ⟨by simp [processEntry, hsk, hmp', hft],
      fun _ => ⟨[], ?_, by simp⟩⟩
    simp [processEntry, hsk, hmp', hft]
  | Socket =>
    refine ⟨by simp [processEntry, hsk, hmp', hft],
      fun _ => ⟨[], ?_, by simp⟩⟩
    simp [processEntry, hsk, hmp', hft]
  | BlockDevice =>
    refine ⟨by simp [processEntry, hsk, hmp', hft],
      fun _ => ⟨[], ?_, by simp⟩⟩
    simp [processEntry, hsk, hmp', hft]
  | CharacterDevice =>
    refine ⟨by simp [processEntry, hsk, hmp', hft],
      fun _ => ⟨[], ?_, by simp⟩⟩
    simp [processEntry, hsk, hmp', hft]
  | Fifo =>
    refine ⟨by simp [processEntry, hsk, hmp', hft],
      fun _ => ⟨[], ?_, by simp⟩⟩
    simp [processEntry, hsk, hmp', hft]
  | Unknown raw =>
    refine ⟨by simp [processEntry, hsk, hmp', hft],
      fun _ => ⟨[], ?_, by simp⟩⟩
    simp [processEntry, hsk, hmp', hft]

/-- C9: in the reader-event trace of a component's entry loop, between any
two `read_next` calls there is at least one `finish` call — every
processed entry's stream is finalized before the next entry is requested,
whether the entry was skipped, materialized, or rejected for its type. -/
theorem C9_finish_before_next (root : Path) (fs : FS)
    (inps : List EntryInput) :
    finishSeparated (runEntries root fs inps).evs = true := by
  suffices h : ∀ fs : FS, fsepAux (runEntries root fs inps).evs false = true by
    exact h fs
  induction inps with
  | nil => intro fs; rfl
  | cons inp rest ih =>
    intro fs
    obtain ⟨hnr, hshape⟩ := processEntry_evs_props root fs inp
    by_cases he : (processEntry root fs inp).err = true
    · simp only [runEntries, if_pos he]
      show fsepAux (Ev.readNext :: (processEntry root fs inp).evs) false = true
      show fsepAux (processEntry root fs inp).evs true = true
      exact fsep_no_rn _ true hnr
    · have he' : (processEntry root fs inp).err = false := by simpa using he
      simp only [runEntries, if_neg he]
      show fsepAux (Ev.readNext ::
        ((processEntry root fs inp).evs ++
          (runEntries root (processEntry root fs inp).fs rest).evs)) false = true
      show fsepAux ((processEntry root fs inp).evs ++
        (runEntries root (processEntry root fs inp).fs rest).evs) true = true
      obtain ⟨l, hl, hlnr⟩ := hshape he'
      rw [hl, List.append_assoc, List.singleton_append]
      rw [fsep_append_finish l _ true hlnr]
      exact ih _

end PkgExtractor
